import Mathlib

/-!
Verification of the `unpacker-rs` P.A.C.K.E.R. unpacker.

A shallow embedding of `src/lib.rs` and `src/unbaser.rs`.

Modelling conventions:
* Rust `String`/`&str` values are `List Char`; byte offsets and char offsets
  coincide on the ASCII inputs used in the concrete theorems.  Error messages
  (always ASCII literals in the source) are Lean `String`s.
* `usize` is `Nat`.  Unchecked Rust arithmetic is modelled with wrapping
  (modulo `2 ^ 64`), the semantics of a build with overflow checks disabled;
  a separate `Checked` model (returning `none` where checked arithmetic
  aborts) captures the debug-profile behaviour where it is itself the
  property under study.
* `Result<T, E>` is `Except String T`; a Rust `panic!`/`unwrap` failure is
  modelled as `none` in an outer `Option`.
* The `regex` crate patterns of `lib.rs` are embedded as executable matchers
  with leftmost-first (Perl-style) match and capture semantics, which is the
  documented behaviour of the crate for these patterns.
-/

/-! ## Characters and small helpers -/

/-- The `usize` modulus: the crate targets 64-bit platforms. -/
def usizeLim : Nat := 2 ^ 64

/-- The `u32` modulus, for the `i as u32` cast in `unbase_with_dict`. -/
def u32Lim : Nat := 2 ^ 32

/-- The single-quote character `0x27`. -/
def sqc : Char := Char.ofNat 39

/-- The double-quote character `0x22`. -/
def dqc : Char := Char.ofNat 34

/-- The newline character, the one code point the regex `.` does not match. -/
def nlChar : Char := Char.ofNat 10

/-- The tab character `0x09`. -/
def tabChar : Char := Char.ofNat 9

/-- ASCII fragment of the regex-crate class `\w` (letters, digits,
underscore), the class of `WORD_REGEX = \b\w+\b` and of the identifier part
of `STRING_REGEX`.  The development is parametric in this class wherever the
claims quantify over all inputs. -/
def wordChar (c : Char) : Bool := c.isAlphanum || c = '_'

/-- The class `[ ]` of `PACKED_REGEX` and the literal space of
`STRING_REGEX`'s `var *`: a single space, no other whitespace. -/
def isSpaceOnly (c : Char) : Bool := c = ' '

/-- The regex-crate class `.`: any character except newline. -/
def notNL (c : Char) : Bool := !(c = nlChar)

/-- The regex class `\d`. -/
def digitCls (c : Char) : Bool := c.isDigit

/-! ## `src/unbaser.rs`: the `Unbaser` -/

/-- `ALPHANUMERIC` of `Unbaser::new`: digits, lowercase, uppercase. -/
def ALPHANUMERIC : List Char :=
  "0123456789abcdefghijklmnopqrstuvwxyzABCDEFGHIJKLMNOPQRSTUVWXYZ".data

/-- `EXTENDED_ASCII` of `Unbaser::new`: the 95 printable ASCII characters,
space (0x20) through tilde (0x7E) in ascending code-point order — exactly
the string literal of the source, built by code point to keep the file free
of quote characters. -/
def EXTENDED_ASCII : List Char := (List.range 95).map (fun i => Char.ofNat (32 + i))

/-- The `Unbaser` struct.  The source stores `dictionary :
Option<HashMap<char, usize>>` built by `build_dict` as
`alphabet.chars().enumerate().map(|(i, c)| (c, i))`; since the alphabet's
characters are distinct, that map is determined by the alphabet itself, so
the model stores the alphabet and looks characters up by position. -/
structure Unbaser where
  base : Nat
  dictionary : Option (List Char)
deriving Repr, DecidableEq

/-- Lookup in the dictionary built from an alphabet: the index of the first
occurrence of the character, `none` when absent (`HashMap::get`). -/
def dictLookup (alphabet : List Char) (c : Char) : Option Nat :=
  match alphabet with
  | [] => none
  | a :: rest => if a = c then some 0 else (dictLookup rest c).map (· + 1)

/-- `Unbaser::new`: native bases 2–36 carry no dictionary; 37–62 use the
first `base` characters of `ALPHANUMERIC` (the byte slice
`&ALPHANUMERIC[..base]`, all ASCII); 95 uses `EXTENDED_ASCII`; anything else
is rejected. -/
def Unbaser.new (base : Nat) : Except String Unbaser :=
  if 2 ≤ base ∧ base ≤ 36 then .ok ⟨base, none⟩
  else if 37 ≤ base ∧ base ≤ 62 then .ok ⟨base, some (ALPHANUMERIC.take base)⟩
  else if base = 95 then .ok ⟨base, some EXTENDED_ASCII⟩
  else .error "Unsupported base encoding."

/-- Rust `char::to_digit` without the radix bound: `0-9`, then `a-z` and
`A-Z` both valued 10–35. -/
def rustToDigit (c : Char) : Option Nat :=
  if 48 ≤ c.toNat ∧ c.toNat ≤ 57 then some (c.toNat - 48)
  else if 97 ≤ c.toNat ∧ c.toNat ≤ 122 then some (c.toNat - 87)
  else if 65 ≤ c.toNat ∧ c.toNat ≤ 90 then some (c.toNat - 55)
  else none

/-- A digit valid in the given radix. -/
def digitInRadix (radix : Nat) (c : Char) : Option Nat :=
  match rustToDigit c with
  | some v => if v < radix then some v else none
  | none => none

/-- `usize::from_str_radix(input, radix)` for radix 2–36: an optional
leading `+` (a leading `-` is an invalid digit for an unsigned type), then
at least one digit of the radix; the value must fit in `usize`
(`PosOverflow` otherwise).  Every `ParseIntError` is mapped by `unbase` to
`"Invalid number format"`, so the model collapses them to that message. -/
def from_str_radix (radix : Nat) (s : List Char) : Except String Nat :=
  let ds := match s with
    | c :: rest => if c = '+' then rest else s
    | [] => s
  if ds.isEmpty then .error "Invalid number format"
  else
    match ds.foldl (fun acc c => acc.bind fun a => (digitInRadix radix c).map fun d => a * radix + d)
        (some 0) with
    | some v => if v < usizeLim then .ok v else .error "Invalid number format"
    | none => .error "Invalid number format"

/-- Wrapping addition on `usize` (release-profile `+`). -/
def wadd (a b : Nat) : Nat := (a + b) % usizeLim

/-- Wrapping multiplication on `usize` (release-profile `*`). -/
def wmul (a b : Nat) : Nat := a * b % usizeLim

/-- Wrapping `base.pow(i as u32)`: the exponent is truncated by the `as u32`
cast, the power is reduced modulo `2 ^ 64` (release-profile `pow`). -/
def wpow (b e : Nat) : Nat := b ^ (e % u32Lim) % usizeLim

/-- One step of the `try_fold` of `unbase_with_dict`:
`dict.get(&ch).map(|&v| acc + v * base.pow(i as u32)).ok_or(err)`. -/
def dictStep (alphabet : List Char) (base acc : Nat) (p : Nat × Char) : Except String Nat :=
  match dictLookup alphabet p.2 with
  | some v => .ok (wadd acc (wmul v (wpow base p.1)))
  | none => .error "Invalid character in input string."

/-- `Unbaser::unbase_with_dict` under release (wrapping) arithmetic:
`input.chars().rev().enumerate().try_fold(0, |acc, (i, ch)| ...)`. -/
def Unbaser.unbase_with_dict (u : Unbaser) (input : List Char) : Except String Nat :=
  match u.dictionary with
  | none => .error "Dictionary not initialized"
  | some alphabet => (input.reverse.enum).foldlM (dictStep alphabet u.base) 0

/-- `Unbaser::unbase`: native parse for 2–36, dictionary accumulation
otherwise. -/
def Unbaser.unbase (u : Unbaser) (input : List Char) : Except String Nat :=
  if 2 ≤ u.base ∧ u.base ≤ 36 then from_str_radix u.base input
  else u.unbase_with_dict input

/-! ### Checked (debug-profile) model of the dictionary accumulation

With overflow checks enabled, `usize::pow`, `*` and `+` abort on overflow.
For a base `b ≥ 2`, every intermediate of `pow`'s
exponentiation-by-squaring is bounded by the mathematical result, so `pow`
aborts exactly when `b ^ e ≥ 2 ^ 64`.  `none` models the abort. -/

/-- Checked `usize::pow`. -/
def checkedPow (b e : Nat) : Option Nat := if b ^ e < usizeLim then some (b ^ e) else none

/-- Checked `usize` multiplication. -/
def checkedMul (a b : Nat) : Option Nat := if a * b < usizeLim then some (a * b) else none

/-- Checked `usize` addition. -/
def checkedAdd (a b : Nat) : Option Nat := if a + b < usizeLim then some (a + b) else none

/-- The `try_fold` of `unbase_with_dict` under checked arithmetic: outer
`none` is an arithmetic abort, `some (.error _)` the explicit failure on an
unknown character, `some (.ok _)` success. -/
def unbaseDictCheckedGo (alphabet : List Char) (base : Nat) :
    List (Nat × Char) → Nat → Option (Except String Nat)
  | [], acc => some (.ok acc)
  | p :: rest, acc =>
    match dictLookup alphabet p.2 with
    | none => some (.error "Invalid character in input string.")
    | some v =>
      match checkedPow base (p.1 % u32Lim) with
      | none => none
      | some pw =>
        match checkedMul v pw with
        | none => none
        | some m =>
          match checkedAdd acc m with
          | none => none
          | some acc2 => unbaseDictCheckedGo alphabet base rest acc2

/-- `Unbaser::unbase_with_dict` under debug (checked) arithmetic. -/
def Unbaser.unbaseWithDictChecked (u : Unbaser) (input : List Char) :
    Option (Except String Nat) :=
  match u.dictionary with
  | none => some (.error "Dictionary not initialized")
  | some alphabet => unbaseDictCheckedGo alphabet u.base input.reverse.enum 0

/-- The Unbaser `Unbaser::new(62)` constructs. -/
def u62 : Unbaser := ⟨62, some (ALPHANUMERIC.take 62)⟩

/-! ## Claims about the Unbaser: C2, C5, C9 -/

/-- C2: the claim states that for every successfully constructed `Unbaser`
and every input, `unbase` returns an explicit `Ok`/`Err` and no arithmetic
in the dictionary accumulation can abort the program.  The code violates
this: on the twelve-character base-62 token `111111111111` the accumulation
computes `62 ^ 11 > 2 ^ 64 - 1`, so `base.pow(i as u32)` overflows `usize`
— an abort (`none`) under the checked arithmetic of a build with overflow
checks, and a silent wrap-around otherwise — instead of an explicit result. -/
theorem C2_dict_accumulation_overflow_aborts :
    Unbaser.new 62 = .ok u62 ∧
    u62.unbaseWithDictChecked (List.replicate 12 '1') = none := by
  constructor
  · rfl
  · rfl

/-- C5: `Unbaser::new r` succeeds exactly for `r` in
`{2..=36} ∪ {37..=62} ∪ {95}`, and any other radix is rejected at
construction time with the error `Unsupported base encoding.`. -/
theorem C5_new_supported_radices (r : Nat) :
    ((∃ u, Unbaser.new r = .ok u) ↔
      (2 ≤ r ∧ r ≤ 36) ∨ (37 ≤ r ∧ r ≤ 62) ∨ r = 95) ∧
    (¬((2 ≤ r ∧ r ≤ 36) ∨ (37 ≤ r ∧ r ≤ 62) ∨ r = 95) →
      Unbaser.new r = .error "Unsupported base encoding.") := by
  unfold Unbaser.new
  constructor
  · constructor
    · rintro ⟨u, hu⟩
      by_contra hno
      have h1 : ¬(2 ≤ r ∧ r ≤ 36) := fun hc => hno (Or.inl hc)
      have h2 : ¬(37 ≤ r ∧ r ≤ 62) := fun hc => hno (Or.inr (Or.inl hc))
      have h3 : ¬(r = 95) := fun hc => hno (Or.inr (Or.inr hc))
      rw [if_neg h1, if_neg h2, if_neg h3] at hu
      exact Except.noConfusion hu
    · rintro (h | h | h)
      · exact ⟨_, if_pos h⟩
      · have h1 : ¬(2 ≤ r ∧ r ≤ 36) := by omega
        rw [if_neg h1, if_pos h]
        exact ⟨_, rfl⟩
      · have h1 : ¬(2 ≤ r ∧ r ≤ 36) := by omega
        have h2 : ¬(37 ≤ r ∧ r ≤ 62) := by omega
        rw [if_neg h1, if_neg h2, if_pos h]
        exact ⟨_, rfl⟩
  · intro hno
    have h1 : ¬(2 ≤ r ∧ r ≤ 36) := fun hc => hno (Or.inl hc)
    have h2 : ¬(37 ≤ r ∧ r ≤ 62) := fun hc => hno (Or.inr (Or.inl hc))
    have h3 : ¬(r = 95) := fun hc => hno (Or.inr (Or.inr hc))
    rw [if_neg h1, if_neg h2, if_neg h3]

/-- C9: for a dictionary radix (37–62 or 95) the empty string decodes to
`Ok(0)` (the `try_fold` over no characters), whereas for a native radix
(2–36) `from_str_radix` rejects the empty string. -/
theorem C9_empty_input_decoding (r : Nat) :
    ((37 ≤ r ∧ r ≤ 62) ∨ r = 95 →
      (Unbaser.new r).bind (fun u => u.unbase []) = .ok 0) ∧
    (2 ≤ r ∧ r ≤ 36 →
      (Unbaser.new r).bind (fun u => u.unbase []) = .error "Invalid number format") := by
  constructor
  · intro h
    have h1 : ¬(2 ≤ r ∧ r ≤ 36) := by omega
    unfold Unbaser.new
    rw [if_neg h1]
    rcases h with h | h
    · rw [if_pos h]
      simp only [Except.bind, Unbaser.unbase, Unbaser.unbase_with_dict, if_neg h1]
      rfl
    · subst h
      rw [if_neg (by omega : ¬(37 ≤ 95 ∧ 95 ≤ 62)), if_pos rfl]
      simp only [Except.bind, Unbaser.unbase, Unbaser.unbase_with_dict]
      rw [if_neg (by omega : ¬(2 ≤ 95 ∧ 95 ≤ 36))]
      rfl
  · intro h
    unfold Unbaser.new
    rw [if_pos h]
    simp only [Except.bind, Unbaser.unbase, if_pos h]
    rfl

/-! ## Claim C4: positional encoding round trip -/

/-- Little-endian base-`r` digits of `n` (fuel-structural so that concrete
instances compute by reduction). -/
def natDigitsLEAux (r : Nat) : Nat → Nat → List Nat
  | 0, _ => []
  | fuel + 1, n => if n = 0 then [] else n % r :: natDigitsLEAux r fuel (n / r)

/-- Little-endian digits of `n`, with the canonical numeral `[0]` for zero. -/
def natDigitsLE (r n : Nat) : List Nat := if n = 0 then [0] else natDigitsLEAux r (n + 1) n

/-- The alphabet the claim prescribes for radix `r`: digits then lowercase
for 2–36, digits/lowercase/uppercase prefixes for 37–62, printable ASCII
for 95.  For every supported radix this coincides with the alphabet
`Unbaser::new` selects. -/
def encAlphabet (r : Nat) : List Char := if r = 95 then EXTENDED_ASCII else ALPHANUMERIC.take r

/-- Encoding of `n` as a positional numeral over `r`'s alphabet, most
significant digit first. -/
def encodeRadix (r n : Nat) : List Char :=
  (natDigitsLE r n).reverse.map (fun d => (encAlphabet r).getD d ' ')

lemma natDigitsLEAux_ofDigits (r : Nat) (hr : 2 ≤ r) :
    ∀ fuel n, n < fuel → Nat.ofDigits r (natDigitsLEAux r fuel n) = n := by
  intro fuel
  induction fuel with
  | zero => intro n h; omega
  | succ fuel ih =>
    intro n h
    unfold natDigitsLEAux
    by_cases hn : n = 0
    · simp [hn, Nat.ofDigits_nil]
    · rw [if_neg hn, Nat.ofDigits_cons, ih (n / r) (by
        have := Nat.div_lt_self (Nat.pos_of_ne_zero hn) (by omega : 1 < r)
        omega)]
      exact Nat.mod_add_div n r

lemma natDigitsLEAux_lt (r : Nat) (hr : 2 ≤ r) :
    ∀ fuel n d, d ∈ natDigitsLEAux r fuel n → d < r := by
  intro fuel
  induction fuel with
  | zero => intro n d h; simp [natDigitsLEAux] at h
  | succ fuel ih =>
    intro n d h
    unfold natDigitsLEAux at h
    by_cases hn : n = 0
    · simp [hn] at h
    · rw [if_neg hn] at h
      rcases List.mem_cons.mp h with h | h
      · subst h; exact Nat.mod_lt _ (by omega)
      · exact ih _ _ h

lemma natDigitsLEAux_length (r : Nat) :
    ∀ fuel n, (natDigitsLEAux r fuel n).length ≤ fuel := by
  intro fuel
  induction fuel with
  | zero => intro n; simp [natDigitsLEAux]
  | succ fuel ih =>
    intro n
    unfold natDigitsLEAux
    by_cases hn : n = 0
    · simp [hn]
    · rw [if_neg hn]
      simpa using Nat.succ_le_succ (ih (n / r))

lemma natDigitsLE_ofDigits (r n : Nat) (hr : 2 ≤ r) :
    Nat.ofDigits r (natDigitsLE r n) = n := by
  unfold natDigitsLE
  by_cases hn : n = 0
  · simp [hn, Nat.ofDigits_cons, Nat.ofDigits_nil]
  · rw [if_neg hn]
    exact natDigitsLEAux_ofDigits r hr (n + 1) n (by omega)

lemma natDigitsLE_lt (r n : Nat) (hr : 2 ≤ r) : ∀ d ∈ natDigitsLE r n, d < r := by
  unfold natDigitsLE
  by_cases hn : n = 0
  · simp [hn]; omega
  · rw [if_neg hn]
    exact fun d h => natDigitsLEAux_lt r hr _ n d h

lemma natDigitsLE_ne_nil (r n : Nat) : natDigitsLE r n ≠ [] := by
  unfold natDigitsLE
  by_cases hn : n = 0
  · simp [hn]
  · rw [if_neg hn]
    unfold natDigitsLEAux
    rw [if_neg hn]
    exact List.cons_ne_nil _ _

lemma natDigitsLE_length (r n : Nat) : (natDigitsLE r n).length ≤ n + 1 := by
  unfold natDigitsLE
  by_cases hn : n = 0
  · simp [hn]
  · rw [if_neg hn]
    exact natDigitsLEAux_length r (n + 1) n

/-- The native alphabet inverts `rustToDigit` on its first 36 characters,
and none of those characters is the sign `+`. -/
lemma alphaNative : ∀ d, d < 36 →
    rustToDigit (ALPHANUMERIC.getD d ' ') = some d ∧ ¬ ALPHANUMERIC.getD d ' ' = '+' := by
  decide

lemma encAlphabet_getD_native (r d : Nat) (hr : r ≤ 36) (hd : d < r) :
    (encAlphabet r).getD d ' ' = ALPHANUMERIC.getD d ' ' := by
  unfold encAlphabet
  rw [if_neg (by omega : ¬ r = 95)]
  rw [List.getD_eq_getElem?_getD, List.getD_eq_getElem?_getD, List.getElem?_take, if_pos hd]

lemma foldl_digits_map (r : Nat) (hr : r ≤ 36) :
    ∀ (L : List Nat) (a : Nat), (∀ d ∈ L, d < r) →
      (L.map (fun d => ALPHANUMERIC.getD d ' ')).foldl
        (fun acc c => acc.bind fun x => (digitInRadix r c).map fun d => x * r + d) (some a)
      = some (L.foldl (fun x d => x * r + d) a) := by
  intro L
  induction L with
  | nil => intro a _; rfl
  | cons d L ih =>
    intro a hL
    have hd : d < r := hL d (List.mem_cons_self d L)
    have h36 : d < 36 := by omega
    have hdig : digitInRadix r (ALPHANUMERIC.getD d ' ') = some d := by
      unfold digitInRadix
      simp only [(alphaNative d h36).1, if_pos hd]
    simp only [List.map_cons, List.foldl_cons, Option.bind_some, hdig, Option.map_some]
    exact ih (a * r + d) (fun x hx => hL x (List.mem_cons_of_mem d hx))

lemma foldl_msb_ofDigits (r : Nat) :
    ∀ (L : List Nat) (a : Nat),
      L.foldl (fun x d => x * r + d) a = Nat.ofDigits r L.reverse + a * r ^ L.length := by
  intro L
  induction L with
  | nil => intro a; simp [Nat.ofDigits_nil]
  | cons d L ih =>
    intro a
    rw [List.foldl_cons, ih (a * r + d), List.reverse_cons, Nat.ofDigits_append]
    simp only [List.length_cons, List.length_reverse, Nat.ofDigits_cons, Nat.ofDigits_nil]
    ring

lemma from_str_radix_encode (r n : Nat) (h2 : 2 ≤ r) (hr : r ≤ 36) (hn : n < 10000) :
    from_str_radix r (encodeRadix r n) = .ok n := by
  have hlt : ∀ d ∈ (natDigitsLE r n).reverse, d < r :=
    fun d hd => natDigitsLE_lt r n h2 d (List.mem_reverse.mp hd)
  have hmap : encodeRadix r n
      = ((natDigitsLE r n).reverse).map (fun d => ALPHANUMERIC.getD d ' ') := by
    unfold encodeRadix
    exact List.map_congr_left (fun d hd => encAlphabet_getD_native r d hr (hlt d hd))
  obtain ⟨d0, L', hL⟩ : ∃ d0 L', (natDigitsLE r n).reverse = d0 :: L' := by
    rcases h' : (natDigitsLE r n).reverse with _ | ⟨d0, L'⟩
    · exact absurd (by simpa using congrArg List.reverse h') (natDigitsLE_ne_nil r n)
    · exact ⟨d0, L', rfl⟩
  have hd0 : d0 < r := hlt d0 (by rw [hL]; exact List.mem_cons_self _ _)
  have hplus : ¬ ALPHANUMERIC.getD d0 ' ' = '+' := (alphaNative d0 (by omega)).2
  have hfold := foldl_digits_map r hr (natDigitsLE r n).reverse 0 hlt
  have hval : (natDigitsLE r n).reverse.foldl (fun x d => x * r + d) 0 = n := by
    rw [foldl_msb_ofDigits, List.reverse_reverse, natDigitsLE_ofDigits r n h2]
    ring
  rw [hmap, hL, List.map_cons]
  unfold from_str_radix
  simp only [if_neg hplus, List.isEmpty_cons, Bool.false_eq_true, if_false]
  have hback : (ALPHANUMERIC.getD d0 ' ' :: List.map (fun d => ALPHANUMERIC.getD d ' ') L')
      = List.map (fun d => ALPHANUMERIC.getD d ' ') (natDigitsLE r n).reverse := by
    rw [hL, List.map_cons]
  rw [hback, hfold, hval]
  show (if n < usizeLim then (Except.ok n : Except String Nat)
      else Except.error "Invalid number format") = Except.ok n
  rw [if_pos (show n < usizeLim by unfold usizeLim; omega)]

lemma dictLookup_getD (alphabet : List Char) (hnd : alphabet.Nodup) :
    ∀ d, d < alphabet.length → dictLookup alphabet (alphabet.getD d ' ') = some d := by
  induction alphabet with
  | nil => intro d hd; simp at hd
  | cons a rest ih =>
    intro d hd
    match d with
    | 0 => simp [dictLookup, List.getD]
    | Nat.succ d =>
      have hdr : d < rest.length := by simpa using hd
      have hne : ¬ a = (a :: rest).getD (d + 1) ' ' := by
        intro he
        have hmem : (a :: rest).getD (d + 1) ' ' ∈ rest := by
          simp only [List.getD_eq_getElem?_getD, List.getElem?_cons_succ]
          rw [List.getElem?_eq_getElem hdr]
          exact List.getElem_mem hdr
        exact (List.nodup_cons.mp hnd).1 (he ▸ hmem)
      unfold dictLookup
      rw [if_neg hne]
      have : (a :: rest).getD (d + 1) ' ' = rest.getD d ' ' := by
        simp [List.getD_eq_getElem?_getD]
      rw [this, ih (List.nodup_cons.mp hnd).2 d hdr]
      rfl

lemma exceptFoldlM_cons {α : Type} (f : Nat → α → Except String Nat) (a : α) (l : List α)
    (acc x : Nat) (h : f acc a = .ok x) :
    List.foldlM f acc (a :: l) = List.foldlM f x l := by
  rw [List.foldlM_cons, h]
  rfl

lemma dict_fold_roundtrip (alphabet : List Char) (r : Nat)
    (hlook : ∀ d, d < r → dictLookup alphabet (alphabet.getD d ' ') = some d) :
    ∀ (L : List Nat) (k acc n : Nat), (∀ d ∈ L, d < r) →
      acc + Nat.ofDigits r L * r ^ k = n → n < usizeLim → k + L.length ≤ u32Lim →
      (List.enumFrom k (L.map (fun d => alphabet.getD d ' '))).foldlM
        (dictStep alphabet r) acc = .ok n := by
  intro L
  induction L with
  | nil =>
    intro k acc n _ hinv hn _
    simp only [List.map_nil, List.enumFrom_nil, List.foldlM_nil]
    simp only [Nat.ofDigits_nil, Nat.zero_mul, Nat.add_zero] at hinv
    rw [hinv]
    rfl
  | cons d L ih =>
    intro k acc n hL hinv hn hk
    have hd : d < r := hL d (List.mem_cons_self d L)
    have hkl : k < u32Lim := by
      have := hk
      simp only [List.length_cons] at this
      omega
    have hle1 : acc + d * r ^ k ≤ n :=
      Nat.le.intro (show acc + d * r ^ k + r * Nat.ofDigits r L * r ^ k = n from by
        rw [← hinv, Nat.ofDigits_cons]; ring)
    have haccle : acc ≤ n := le_trans (Nat.le_add_right _ _) hle1
    have hdkle : d * r ^ k ≤ n := le_trans (Nat.le_add_left _ _) hle1
    have hstep : wadd acc (wmul d (wpow r k)) = acc + d * r ^ k := by
      rcases Nat.eq_zero_or_pos d with h0 | h0
      · subst h0
        unfold wadd wmul wpow
        simp only [Nat.zero_mul, Nat.zero_mod, Nat.add_zero]
        exact Nat.mod_eq_of_lt (lt_of_le_of_lt haccle hn)
      · have hrk : r ^ k ≤ d * r ^ k := Nat.le_mul_of_pos_left _ h0
        have hpk : r ^ k < usizeLim := lt_of_le_of_lt (le_trans hrk hdkle) hn
        have hdk : d * r ^ k < usizeLim := lt_of_le_of_lt hdkle hn
        unfold wadd wmul wpow
        rw [Nat.mod_eq_of_lt hkl, Nat.mod_eq_of_lt hpk, Nat.mod_eq_of_lt hdk,
          Nat.mod_eq_of_lt (lt_of_le_of_lt hle1 hn)]
    have happ : dictStep alphabet r acc (k, alphabet.getD d ' ') = Except.ok (acc + d * r ^ k) := by
      unfold dictStep
      simp only [hlook d hd, hstep]
    rw [List.map_cons, List.enumFrom_cons, exceptFoldlM_cons _ _ _ _ _ happ]
    apply ih (k + 1) (acc + d * r ^ k) n (fun x hx => hL x (List.mem_cons_of_mem d hx))
    · rw [← hinv, Nat.ofDigits_cons]
      ring
    · exact hn
    · simp only [List.length_cons] at hk
      omega

lemma listEnum_enumFrom {α : Type} (l : List α) : l.enum = List.enumFrom 0 l := rfl

lemma alphanumericNodup : ALPHANUMERIC.Nodup := by decide

lemma extendedAsciiNodup : EXTENDED_ASCII.Nodup := by decide

/-- C4: for every supported radix and every `n < 10000`, encoding `n` over
the radix's alphabet (digits then lowercase for 2–36; digits, lowercase,
uppercase prefixes for 37–62; printable ASCII for 95) and decoding with the
`Unbaser` built for that radix yields `Ok n`. -/
theorem C4_encode_unbase_roundtrip (r n : Nat)
    (hr : (2 ≤ r ∧ r ≤ 36) ∨ (37 ≤ r ∧ r ≤ 62) ∨ r = 95) (hn : n < 10000) :
    (Unbaser.new r).bind (fun u => u.unbase (encodeRadix r n)) = .ok n := by
  have hrev : (encodeRadix r n).reverse
      = (natDigitsLE r n).map (fun d => (encAlphabet r).getD d ' ') := by
    unfold encodeRadix
    rw [← List.map_reverse, List.reverse_reverse]
  rcases hr with h | h | h
  · unfold Unbaser.new
    rw [if_pos h]
    simp only [Except.bind, Unbaser.unbase, if_pos h]
    exact from_str_radix_encode r n h.1 h.2 hn
  · have h1 : ¬(2 ≤ r ∧ r ≤ 36) := by omega
    unfold Unbaser.new
    rw [if_neg h1, if_pos h]
    simp only [Except.bind, Unbaser.unbase, Unbaser.unbase_with_dict, if_neg h1]
    have halph : encAlphabet r = ALPHANUMERIC.take r := by
      unfold encAlphabet
      rw [if_neg (by omega : ¬ r = 95)]
    rw [hrev, halph, listEnum_enumFrom]
    have hnodup : (ALPHANUMERIC.take r).Nodup :=
      List.Nodup.sublist (List.take_sublist r ALPHANUMERIC) alphanumericNodup
    have hlen : (ALPHANUMERIC.take r).length = r := by
      rw [List.length_take]
      have h62 : ALPHANUMERIC.length = 62 := by decide
      omega
    have hlook : ∀ d, d < r →
        dictLookup (ALPHANUMERIC.take r) ((ALPHANUMERIC.take r).getD d ' ') = some d :=
      fun d hd => dictLookup_getD _ hnodup d (by rw [hlen]; exact hd)
    exact dict_fold_roundtrip _ r hlook (natDigitsLE r n) 0 0 n
      (natDigitsLE_lt r n (by omega))
      (by simpa using natDigitsLE_ofDigits r n (by omega))
      (by unfold usizeLim; omega)
      (by have := natDigitsLE_length r n; unfold u32Lim; omega)
  · subst h
    have h1 : ¬(2 ≤ (95 : Nat) ∧ (95 : Nat) ≤ 36) := by omega
    unfold Unbaser.new
    rw [if_neg h1, if_neg (by omega : ¬(37 ≤ (95 : Nat) ∧ (95 : Nat) ≤ 62)), if_pos rfl]
    simp only [Except.bind, Unbaser.unbase, Unbaser.unbase_with_dict, if_neg h1]
    have halph : encAlphabet 95 = EXTENDED_ASCII := by
      unfold encAlphabet
      rw [if_pos rfl]
    rw [hrev, halph, listEnum_enumFrom]
    have hlen : EXTENDED_ASCII.length = 95 := by decide
    have hlook : ∀ d, d < 95 →
        dictLookup EXTENDED_ASCII (EXTENDED_ASCII.getD d ' ') = some d :=
      fun d hd => dictLookup_getD _ extendedAsciiNodup d (by rw [hlen]; exact hd)
    exact dict_fold_roundtrip _ 95 hlook (natDigitsLE 95 n) 0 0 n
      (natDigitsLE_lt 95 n (by omega))
      (by simpa using natDigitsLE_ofDigits 95 n (by omega))
      (by unfold usizeLim; omega)
      (by have := natDigitsLE_length 95 n; unfold u32Lim; omega)

/-- Witness for C4 at radix 62 and n = 9999. -/
theorem C4_encode_unbase_roundtrip_example :
    (Unbaser.new 62).bind (fun u => u.unbase (encodeRadix 62 9999)) = .ok 9999 :=
  C4_encode_unbase_roundtrip 62 9999 (by decide) (by decide)

/-! ## `decode_words` (lib.rs): the Word Decoder -/

lemma dropWhileLengthLe (p : Char → Bool) : ∀ l : List Char, (l.dropWhile p).length ≤ l.length := by
  intro l
  induction l with
  | nil => exact Nat.le_refl _
  | cons c cs ih =>
    rw [List.dropWhile_cons]
    by_cases hc : p c
    · rw [if_pos hc]
      exact le_trans ih (Nat.le_succ _)
    · rw [if_neg hc]

/-- Rust `str::replace` (fuel-structural so concrete runs compute by
reduction): scan left to right, replacing each non-overlapping occurrence
of the pattern.  The source only calls `replace` with nonempty ASCII
patterns; with an empty pattern the model returns the input unchanged. -/
def strReplaceF : Nat → List Char → List Char → List Char → List Char
  | 0, s, _, _ => s
  | fuel + 1, s, pat, rep =>
    if pat ≠ [] ∧ pat.isPrefixOf s then rep ++ strReplaceF fuel (s.drop pat.length) pat rep
    else match s with
      | [] => []
      | c :: cs => c :: strReplaceF fuel cs pat rep

/-- `s.replace(pat, rep)`. -/
def strReplace (s pat rep : List Char) : List Char := strReplaceF (s.length + 1) s pat rep

/-- `payload.replace(r"\\", r"\").replace(r"\'", "'")`: the escape cleaning
at the start of `decode_words`. -/
def cleanEscapes (payload : List Char) : List Char :=
  strReplace (strReplace payload ['\\', '\\'] ['\\']) ['\\', sqc] [sqc]

/-- The closure of `WORD_REGEX.replace_all`: substitute a token whose
decoded index is an in-range index of a non-empty symbol-table entry, keep
it byte-identical otherwise (including on decode failure). -/
def substWord (symtab : List (List Char)) (u : Unbaser) (word : List Char) : List Char :=
  match u.unbase word with
  | .ok index =>
    if index < symtab.length ∧ symtab.getD index [] ≠ [] then symtab.getD index [] else word
  | .error _ => word

/-- `WORD_REGEX.replace_all` with `WORD_REGEX = \b\w+\b`: under
`replace_all` this regex matches exactly the maximal runs of word
characters, left to right, so the embedding is the scanner below
(parametric in the word class `w`). -/
def replaceAllWords (w : Char → Bool) (f : List Char → List Char) : List Char → List Char
  | [] => []
  | c :: cs =>
    if w c then f (c :: cs.takeWhile w) ++ replaceAllWords w f (cs.dropWhile w)
    else c :: replaceAllWords w f cs
termination_by l => l.length
decreasing_by
  all_goals simp only [List.length_cons]
  · exact Nat.lt_succ_of_le (dropWhileLengthLe _ _)
  · exact Nat.lt_succ_self _

/-- `decode_words(payload, symtab, unbaser)`. -/
def decode_words (payload : List Char) (symtab : List (List Char)) (u : Unbaser) : List Char :=
  replaceAllWords wordChar (substWord symtab u) (cleanEscapes payload)

/-! ### Specification side of C1: independent chunking into maximal
same-class runs, then chunkwise substitution -/

/-- One `foldr` step of the chunking: prepend `c` to the first chunk when it
has `c`'s word-class, open a new chunk otherwise. -/
def chunkCons (w : Char → Bool) (c : Char) : List (List Char) → List (List Char)
  | [] => [[c]]
  | [] :: ts => [c] :: [] :: ts
  | (h :: t) :: ts => if w c = w h then (c :: h :: t) :: ts else [c] :: (h :: t) :: ts

/-- The decomposition of a string into maximal runs of characters of equal
word-class. -/
def chunksBy (w : Char → Bool) (l : List Char) : List (List Char) := l.foldr (chunkCons w) []

/-- Apply the token substitution to word chunks, keep other chunks
byte-identical. -/
def applyChunk (w : Char → Bool) (f : List Char → List Char) : List Char → List Char
  | [] => []
  | h :: t => if w h then f (h :: t) else h :: t

/-- The Word Decoder as the claim states it: clean the escapes, split into
maximal word tokens and non-word runs, substitute each word token whose
decoded value indexes a non-empty symbol-table entry, leave everything else
byte-identical. -/
def decodeWordsSpec (payload : List Char) (symtab : List (List Char)) (u : Unbaser) : List Char :=
  ((chunksBy wordChar (cleanEscapes payload)).map
    (applyChunk wordChar (substWord symtab u))).flatten

lemma chunksBy_cons (w : Char → Bool) (c : Char) (cs : List Char) :
    chunksBy w (c :: cs) = chunkCons w c (chunksBy w cs) := rfl

lemma chunksBy_cons_head (w : Char → Bool) (h : Char) (t : List Char) :
    ∃ s ts, chunksBy w (h :: t) = (h :: s) :: ts := by
  rw [chunksBy_cons]
  rcases chunksBy w t with _ | ⟨c0, ts⟩
  · exact ⟨[], [], rfl⟩
  · rcases c0 with _ | ⟨h0, t0⟩
    · exact ⟨[], [] :: ts, rfl⟩
    · by_cases he : w h = w h0
      · refine ⟨h0 :: t0, ts, ?_⟩
        simp only [chunkCons]
        rw [if_pos he]
      · refine ⟨[], (h0 :: t0) :: ts, ?_⟩
        simp only [chunkCons]
        rw [if_neg he]

lemma chunksBy_run (w : Char → Bool) (b : Bool) :
    ∀ (run rest : List Char), run ≠ [] → (∀ x ∈ run, w x = b) →
      (rest = [] ∨ ∃ h t, rest = h :: t ∧ ¬ w h = b) →
      chunksBy w (run ++ rest) = run :: chunksBy w rest := by
  intro run
  induction run with
  | nil => intro rest h; exact absurd rfl h
  | cons a run ih =>
    intro rest _ hall hrest
    have ha : w a = b := hall a (List.mem_cons_self _ _)
    rcases run with _ | ⟨a2, run'⟩
    · rcases hrest with h | ⟨h, t, hrt, hh⟩
      · subst h; rfl
      · subst hrt
        obtain ⟨s, ts, hst⟩ := chunksBy_cons_head w h t
        rw [List.singleton_append, chunksBy_cons, hst]
        have hne : ¬ w a = w h := fun he => hh (he.symm.trans ha)
        simp only [chunkCons]
        rw [if_neg hne, ← hst]
    · have hx : (a :: a2 :: run') ++ rest = a :: ((a2 :: run') ++ rest) := rfl
      rw [hx, chunksBy_cons,
        ih rest (List.cons_ne_nil _ _) (fun x hx => hall x (List.mem_cons_of_mem a hx)) hrest]
      have ha2 : w a2 = b := hall a2 (List.mem_cons_of_mem a (List.mem_cons_self _ _))
      simp only [chunkCons]
      rw [if_pos (ha.trans ha2.symm)]

lemma chunksBy_flatten_false (w : Char → Bool) (f : List Char → List Char) (c : Char)
    (cs : List Char) (hc : w c = false) :
    ((chunksBy w (c :: cs)).map (applyChunk w f)).flatten
      = c :: ((chunksBy w cs).map (applyChunk w f)).flatten := by
  rw [chunksBy_cons]
  rcases hcs : chunksBy w cs with _ | ⟨c0, ts⟩
  · simp [chunkCons, applyChunk, hc]
  · rcases c0 with _ | ⟨h0, t0⟩
    · simp [chunkCons, applyChunk, hc]
    · by_cases he : w c = w h0
      · have hh0 : w h0 = false := he.symm.trans hc
        simp [chunkCons, applyChunk, hc, he, hh0]
      · have hh0 : w h0 = true := by
          rcases Bool.dichotomy (w h0) with h | h
          · exact absurd (hc.trans h.symm) he
          · exact h
        simp [chunkCons, applyChunk, hc, he, hh0]

lemma dropWhile_head_false (p : Char → Bool) (l : List Char) :
    l.dropWhile p = [] ∨ ∃ h t, l.dropWhile p = h :: t ∧ ¬ p h = true := by
  induction l with
  | nil => exact Or.inl rfl
  | cons c cs ih =>
    rw [List.dropWhile_cons]
    by_cases hc : p c
    · rw [if_pos hc]
      exact ih
    · rw [if_neg hc]
      exact Or.inr ⟨c, cs, rfl, hc⟩

lemma replaceAllWords_nil (w : Char → Bool) (f : List Char → List Char) :
    replaceAllWords w f [] = [] := by
  simp only [replaceAllWords]

lemma replaceAllWords_cons (w : Char → Bool) (f : List Char → List Char) (c : Char)
    (cs : List Char) :
    replaceAllWords w f (c :: cs)
      = if w c then f (c :: cs.takeWhile w) ++ replaceAllWords w f (cs.dropWhile w)
        else c :: replaceAllWords w f cs := by
  simp only [replaceAllWords]

lemma replaceAllWords_eq_chunks (w : Char → Bool) (f : List Char → List Char) :
    ∀ (n : Nat) (l : List Char), l.length ≤ n →
      replaceAllWords w f l = ((chunksBy w l).map (applyChunk w f)).flatten := by
  intro n
  induction n with
  | zero =>
    intro l hl
    have hnil : l = [] := List.length_eq_zero.mp (Nat.le_zero.mp hl)
    subst hnil
    rw [replaceAllWords_nil]
    rfl
  | succ n ih =>
    intro l hl
    rcases l with _ | ⟨c, cs⟩
    · rw [replaceAllWords_nil]
      rfl
    · have hcs : cs.length ≤ n := by
        simp only [List.length_cons] at hl
        omega
      by_cases hc : w c
      · rw [replaceAllWords_cons, if_pos hc]
        have hsplit : c :: cs = (c :: cs.takeWhile w) ++ cs.dropWhile w := by
          rw [List.cons_append, List.takeWhile_append_dropWhile]
        have hrun : chunksBy w (c :: cs)
            = (c :: cs.takeWhile w) :: chunksBy w (cs.dropWhile w) := by
          conv_lhs => rw [hsplit]
          apply chunksBy_run w true
          · exact List.cons_ne_nil _ _
          · intro x hx
            rcases List.mem_cons.mp hx with h | h
            · subst h; exact hc
            · exact List.mem_takeWhile_imp h
          · exact dropWhile_head_false w cs
        rw [hrun, List.map_cons, List.flatten_cons]
        have happ : applyChunk w f (c :: cs.takeWhile w) = f (c :: cs.takeWhile w) := by
          simp only [applyChunk]
          rw [if_pos hc]
        rw [happ]
        congr 1
        exact ih (cs.dropWhile w) (le_trans (dropWhileLengthLe w cs) hcs)
      · have hc2 : w c = false := by
          rcases Bool.dichotomy (w c) with h | h
          · exact h
          · exact absurd h hc
        rw [replaceAllWords_cons, if_neg hc, chunksBy_flatten_false w f c cs hc2]
        exact congrArg (c :: ·) (ih cs hcs)

/-- C1: the Word Decoder first undoes the payload escaping (every `\\` to
`\`, then every `\'` to `'`), then replaces each maximal word token whose
decoded value indexes a non-empty symbol-table entry by that entry, leaving
every other token and every non-word character byte-identical; as a total
function it always returns a string.  Formally, `decode_words` equals the
chunk-wise description `decodeWordsSpec` built from an independent maximal
run decomposition. -/
theorem C1_decode_words_token_substitution (payload : List Char) (symtab : List (List Char))
    (u : Unbaser) :
    decode_words payload symtab u = decodeWordsSpec payload symtab u := by
  unfold decode_words decodeWordsSpec
  exact replaceAllWords_eq_chunks wordChar (substWord symtab u)
    (cleanEscapes payload).length (cleanEscapes payload) (Nat.le_refl _)

/-! ## `detect` (lib.rs): the Signature Detector

`PACKED_REGEX = eval[ ]*\(...`: literal tokens separated by `[ ]*` (runs of
spaces — the class contains the space only).  Each repetition is followed by
a token starting with a non-space character (or ends the pattern, where it
cannot affect `is_match`), so greedy matching is deterministic: consume the
whole run. -/

/-- The literal tokens of `PACKED_REGEX`, in order. -/
def PACKED_TOKENS : List (List Char) :=
  ["eval".data, "(".data, "function".data, "(".data, "p".data, ",".data, "a".data,
   ",".data, "c".data, ",".data, "k".data, ",".data, "e".data, ",".data]

/-- Match a token sequence at the head of `l`, skipping a run of
`spc`-characters after each token. -/
def matchTokens (spc : Char → Bool) : List (List Char) → List Char → Bool
  | [], _ => true
  | t :: ts, l =>
    if t.isPrefixOf l then matchTokens spc ts ((l.drop t.length).dropWhile spc) else false

/-- `PACKED_REGEX.find(source)`: the offset of the leftmost match. -/
def findPacked (s : List Char) : Option Nat :=
  (List.range (s.length + 1)).find? (fun i => matchTokens isSpaceOnly PACKED_TOKENS (s.drop i))

/-- `detect(source) = PACKED_REGEX.is_match(source)`. -/
def detect (source : List Char) : Bool := (findPacked source).isSome

/-- A run of characters of the class `spc`. -/
def SpacesOf (spc : Char → Bool) (l : List Char) : Prop := ∀ c ∈ l, spc c = true

/-- `GlueTokens spc ts l`: `l` starts with the tokens `ts` in order, each
followed by an arbitrary (possibly empty) `spc`-run, anything after the
last. -/
def GlueTokens (spc : Char → Bool) : List (List Char) → List Char → Prop
  | [], _ => True
  | t :: ts, l => ∃ sp rest, SpacesOf spc sp ∧ l = t ++ (sp ++ rest) ∧ GlueTokens spc ts rest

/-- The text contains, at some position, the preamble token sequence with
`spc`-runs between the tokens. -/
def ContainsPreamble (spc : Char → Bool) (s : List Char) : Prop :=
  ∃ pre rest, s = pre ++ rest ∧ GlueTokens spc PACKED_TOKENS rest

lemma dropWhile_append_run (p : Char → Bool) :
    ∀ (sp rest : List Char), (∀ c ∈ sp, p c = true) →
      (rest = [] ∨ ∃ h t, rest = h :: t ∧ p h = false) →
      (sp ++ rest).dropWhile p = rest := by
  intro sp
  induction sp with
  | nil =>
    intro rest _ hr
    simp only [List.nil_append]
    rcases hr with h | ⟨h, t, hrt, hh⟩
    · subst h; rfl
    · subst hrt
      rw [List.dropWhile_cons, if_neg (by simp [hh])]
  | cons a sp ih =>
    intro rest hall hr
    rw [List.cons_append, List.dropWhile_cons, if_pos (hall a (List.mem_cons_self _ _))]
    exact ih rest (fun c hc => hall c (List.mem_cons_of_mem a hc)) hr

lemma matchTokens_iff (spc : Char → Bool) :
    ∀ (ts : List (List Char)), (∀ t ∈ ts, ∃ c t2, t = c :: t2 ∧ spc c = false) →
      ∀ l, matchTokens spc ts l = true ↔ GlueTokens spc ts l := by
  intro ts
  induction ts with
  | nil =>
    intro _ l
    simp [matchTokens, GlueTokens]
  | cons t ts ih =>
    intro hts l
    constructor
    · intro hm
      unfold matchTokens at hm
      by_cases hp : t.isPrefixOf l
      · rw [if_pos hp] at hm
        obtain ⟨r, hr⟩ := List.isPrefixOf_iff_prefix.mp hp
        have hdrop : l.drop t.length = r := by rw [← hr, List.drop_left]
        refine ⟨r.takeWhile spc, r.dropWhile spc, ?_, ?_, ?_⟩
        · intro c hcmem
          exact List.mem_takeWhile_imp hcmem
        · rw [← hr, List.takeWhile_append_dropWhile]
        · refine (ih (fun t2 h => hts t2 (List.mem_cons_of_mem t h)) _).mp ?_
          rw [hdrop] at hm
          exact hm
      · rw [if_neg hp] at hm
        exact absurd hm (by simp)
    · rintro ⟨sp, rest, hsp, hl, hglue⟩
      unfold matchTokens
      have hp : t.isPrefixOf l := by
        rw [hl, List.isPrefixOf_iff_prefix]
        exact List.prefix_append t (sp ++ rest)
      rw [if_pos hp]
      have hdrop : l.drop t.length = sp ++ rest := by rw [hl, List.drop_left]
      rw [hdrop]
      have hrest : (sp ++ rest).dropWhile spc = rest ∨ ts = [] := by
        rcases hts2 : ts with _ | ⟨t1, ts1⟩
        · exact Or.inr rfl
        · have hmem : t1 ∈ t :: ts := by
            rw [hts2]
            exact List.mem_cons_of_mem t (List.mem_cons_self _ _)
          obtain ⟨c1, t1b, ht1, hc1⟩ := hts t1 hmem
          refine Or.inl (dropWhile_append_run spc sp rest hsp ?_)
          rw [hts2] at hglue
          obtain ⟨sp1, rest1, _, hrest1, _⟩ := hglue
          subst ht1
          refine Or.inr ⟨c1, t1b ++ (sp1 ++ rest1), ?_, hc1⟩
          rw [hrest1]
          rfl
      rcases hrest with hres | hnil
      · rw [hres]
        exact (ih (fun t2 h => hts t2 (List.mem_cons_of_mem t h)) rest).mpr hglue
      · subst hnil
        rfl

lemma packedTokensHeads (spc : Char → Bool) (hsp : spc '(' = false ∧ spc 'e' = false ∧
    spc 'f' = false ∧ spc 'p' = false ∧ spc 'a' = false ∧ spc 'c' = false ∧
    spc 'k' = false ∧ spc ',' = false) :
    ∀ t ∈ PACKED_TOKENS, ∃ c t2, t = c :: t2 ∧ spc c = false := by
  intro t ht
  simp only [PACKED_TOKENS, List.mem_cons, List.not_mem_nil, or_false] at ht
  obtain ⟨h1, h2, h3, h4, h5, h6, h7, h8⟩ := hsp
  rcases ht with h|h|h|h|h|h|h|h|h|h|h|h|h|h <;> subst h
  · exact ⟨'e', "val".data, rfl, h2⟩
  · exact ⟨'(', [], rfl, h1⟩
  · exact ⟨'f', "unction".data, rfl, h3⟩
  · exact ⟨'(', [], rfl, h1⟩
  · exact ⟨'p', [], rfl, h4⟩
  · exact ⟨',', [], rfl, h8⟩
  · exact ⟨'a', [], rfl, h5⟩
  · exact ⟨',', [], rfl, h8⟩
  · exact ⟨'c', [], rfl, h6⟩
  · exact ⟨',', [], rfl, h8⟩
  · exact ⟨'k', [], rfl, h7⟩
  · exact ⟨',', [], rfl, h8⟩
  · exact ⟨'e', [], rfl, h2⟩
  · exact ⟨',', [], rfl, h8⟩

/-- C3, amended: `detect` returns true iff the text contains, at some
position, the preamble token sequence `eval ( function ( p , a , c , k , e
,` with arbitrary (possibly empty) runs of spaces — spaces only, tabs are
not accepted by the regex class `[ ]` — between tokens; in particular
`detect` is false on the empty string, and is a pure predicate. -/
theorem C3_detect_space_separated_preamble :
    (∀ s : List Char, detect s = true ↔ ContainsPreamble isSpaceOnly s) ∧
    detect [] = false := by
  have hts : ∀ t ∈ PACKED_TOKENS, ∃ c t2, t = c :: t2 ∧ isSpaceOnly c = false :=
    packedTokensHeads isSpaceOnly (by decide)
  constructor
  · intro s
    unfold detect findPacked
    rw [List.find?_isSome]
    constructor
    · rintro ⟨i, _, hp⟩
      exact ⟨s.take i, s.drop i, (List.take_append_drop i s).symm,
        (matchTokens_iff isSpaceOnly PACKED_TOKENS hts (s.drop i)).mp hp⟩
    · rintro ⟨pre, rest, hs, hglue⟩
      refine ⟨pre.length, ?_, ?_⟩
      · rw [List.mem_range]
        have : pre.length ≤ s.length := by
          rw [hs, List.length_append]
          omega
        omega
      · have hdrop : s.drop pre.length = rest := by rw [hs, List.drop_left]
        rw [hdrop]
        exact (matchTokens_iff isSpaceOnly PACKED_TOKENS hts rest).mpr hglue
  · decide

/-- The preamble with a tab between `eval` and the opening parenthesis. -/
def exC3tab : List Char := "eval".data ++ [tabChar] ++ "(function(p,a,c,k,e,".data

/-- The space-or-tab separator class the claim asserts. -/
def spaceOrTab (c : Char) : Bool := c = ' ' || c = tabChar

/-- C3 counterexample: this text contains the preamble with space-or-tab
runs between tokens (here a single tab), so the claim as stated requires
`detect` to return true, but `detect` returns false. -/
theorem C3_tab_preamble_not_detected :
    ContainsPreamble spaceOrTab exC3tab ∧ detect exC3tab = false := by
  constructor
  · refine ⟨[], exC3tab, rfl, ?_⟩
    refine (matchTokens_iff spaceOrTab PACKED_TOKENS
      (packedTokensHeads spaceOrTab (by decide)) exC3tab).mp (by decide)
  · decide

/-! ## A small backtracking matcher for the remaining regexes

`JUICERS` and `STRING_REGEX` combine literals, greedy/lazy repetitions of
character classes, one alternation and capture groups.  The engine below
implements leftmost-first (Perl-style) matching with backtracking — the
capture semantics the regex crate documents for such patterns: start
offsets are tried left to right; a greedy (lazy) repetition tries longer
(shorter) spans first; the first alternative is preferred. -/

/-- The opening brace and closing brace characters. -/
def lbrace : Char := Char.ofNat 123

/-- The closing brace character `0x7d`. -/
def rbrace : Char := Char.ofNat 125

/-- Pattern items: literal, single character of a class, starred class
(greedy flag), alternation, capture group, and the internal group-closing
marker. -/
inductive Pat where
  | lit : List Char → Pat
  | cls : (Char → Bool) → Pat
  | star : Bool → (Char → Bool) → Pat
  | alt : List Pat → List Pat → Pat
  | grp : Nat → List Pat → Pat
  | closeg : Nat → Pat

mutual
def psize : Pat → Nat
  | .lit _ => 1
  | .cls _ => 1
  | .star _ _ => 1
  | .alt a b => psizeList a + psizeList b + 1
  | .grp _ a => psizeList a + 2
  | .closeg _ => 1
def psizeList : List Pat → Nat
  | [] => 0
  | p :: ps => psize p + psizeList ps
end

lemma psizeList_append (a b : List Pat) : psizeList (a ++ b) = psizeList a + psizeList b := by
  induction a with
  | nil => simp [psizeList]
  | cons p ps ih =>
    simp only [List.cons_append, psizeList, List.append_eq, ih]
    omega

/-- The backtracking matcher.  Arguments: fuel (structural recursion; every
step shrinks `psizeList` of the pattern list, so `psizeList + 1` fuel
suffices), the pattern list, the remaining input, the stack of open groups
(number and the suffix at opening), the closed captures.  Returns the
captures and the remaining suffix of the first (leftmost-first) way the
whole list matches, `none` otherwise. -/
def mtch : Nat → List Pat → List Char → List (Nat × List Char) → List (Nat × List Char) →
    Option (List (Nat × List Char) × List Char)
  | 0, _, _, _, _ => none
  | _ + 1, [], s, _, caps => some (caps, s)
  | fuel + 1, .lit t :: ps, s, stk, caps =>
    if t.isPrefixOf s then mtch fuel ps (s.drop t.length) stk caps else none
  | fuel + 1, .cls p :: ps, s, stk, caps =>
    match s with
    | [] => none
    | c :: cs => if p c then mtch fuel ps cs stk caps else none
  | fuel + 1, .star greedy p :: ps, s, stk, caps =>
    (if greedy then (List.range ((s.takeWhile p).length + 1)).reverse
      else List.range ((s.takeWhile p).length + 1)).findSome?
      (fun k => mtch fuel ps (s.drop k) stk caps)
  | fuel + 1, .alt a b :: ps, s, stk, caps =>
    match mtch fuel (a ++ ps) s stk caps with
    | some r => some r
    | none => mtch fuel (b ++ ps) s stk caps
  | fuel + 1, .grp n a :: ps, s, stk, caps =>
    mtch fuel (a ++ .closeg n :: ps) s ((n, s) :: stk) caps
  | fuel + 1, .closeg _ :: ps, s, stk, caps =>
    match stk with
    | [] => none
    | (m, sOpen) :: stk2 => mtch fuel ps s stk2 ((m, sOpen.take (sOpen.length - s.length)) :: caps)

/-- Run a pattern list at the head of `s` with sufficient fuel. -/
def runPats (ps : List Pat) (s : List Char) : Option (List (Nat × List Char) × List Char) :=
  mtch (psizeList ps + 1) ps s [] []

/-- Leftmost match: the first start offset (in order) at which the pattern
list matches; returns the captures and the end offset of the whole match. -/
def findMatch (ps : List Pat) (s : List Char) : Option (List (Nat × List Char) × Nat) :=
  (List.range (s.length + 1)).findSome?
    (fun i => (runPats ps (s.drop i)).map (fun r => (r.1, s.length - r.2.length)))

/-- The text of capture group `n` (`caps[n]`), empty when absent. -/
def capStr (caps : List (Nat × List Char)) (n : Nat) : List Char :=
  ((caps.find? (fun q => q.1 == n)).map (fun q => q.2)).getD []

/-- Declarative match semantics of a pattern list against the head of `s`
(capture markers are transparent): the pattern list matches some prefix. -/
def Sem : List Pat → List Char → Prop
  | [], _ => True
  | .lit t :: ps, s => ∃ rest, s = t ++ rest ∧ Sem ps rest
  | .cls p :: ps, s => ∃ c rest, s = c :: rest ∧ p c = true ∧ Sem ps rest
  | .star _ p :: ps, s => ∃ run rest, s = run ++ rest ∧ (∀ c ∈ run, p c = true) ∧ Sem ps rest
  | .alt a b :: ps, s => Sem (a ++ ps) s ∨ Sem (b ++ ps) s
  | .grp n a :: ps, s => Sem (a ++ .closeg n :: ps) s
  | .closeg _ :: ps, s => Sem ps s
termination_by ps _ => psizeList ps
decreasing_by
  all_goals simp only [psizeList, psize, List.append_eq, psizeList_append]
  all_goals omega

lemma take_mem_takeWhile (p : Char → Bool) (s : List Char) (k : Nat)
    (hk : k ≤ (s.takeWhile p).length) : ∀ c ∈ s.take k, p c = true := by
  intro c hc
  have hsplit : s.take k = (s.takeWhile p).take k := by
    conv_lhs => rw [← List.takeWhile_append_dropWhile (p := p) (l := s)]
    exact List.take_append_of_le_length hk
  rw [hsplit] at hc
  exact List.mem_takeWhile_imp (List.mem_of_mem_take hc)

lemma mtch_sound :
    ∀ (fuel : Nat) (ps : List Pat) (s : List Char) (stk caps : List (Nat × List Char)) r,
      mtch fuel ps s stk caps = some r → Sem ps s := by
  intro fuel
  induction fuel with
  | zero =>
    intro ps s stk caps r h
    exact absurd h (by simp [mtch])
  | succ fuel ih =>
    intro ps s stk caps r h
    match ps with
    | [] => simp only [Sem]
    | .lit t :: ps =>
      simp only [mtch] at h
      by_cases hp : t.isPrefixOf s
      · rw [if_pos hp] at h
        obtain ⟨rest, hrest⟩ := List.isPrefixOf_iff_prefix.mp hp
        have hdrop : s.drop t.length = rest := by rw [← hrest, List.drop_left]
        simp only [Sem]
        exact ⟨rest, hrest.symm, ih ps rest stk caps r (by rw [← hdrop]; exact h)⟩
      · rw [if_neg hp] at h
        exact absurd h (by simp)
    | .cls p :: ps =>
      simp only [mtch] at h
      rcases s with _ | ⟨c, cs⟩
      · have h2 : (none : Option (List (Nat × List Char) × List Char)) = some r := h
        exact absurd h2 (by simp)
      · have h2 : (if p c = true then mtch fuel ps cs stk caps else none) = some r := h
        by_cases hc : p c
        · rw [if_pos hc] at h2
          simp only [Sem]
          exact ⟨c, cs, rfl, hc, ih ps cs stk caps r h2⟩
        · rw [if_neg hc] at h2
          exact absurd h2 (by simp)
    | .star greedy p :: ps =>
      simp only [mtch] at h
      obtain ⟨k, hk, hsome⟩ := List.exists_of_findSome?_eq_some h
      have hkle : k ≤ (s.takeWhile p).length := by
        rcases greedy with _ | _
        · simp only [Bool.false_eq_true, if_false, List.mem_range] at hk
          omega
        · simp only [if_true, List.mem_reverse, List.mem_range] at hk
          omega
      simp only [Sem]
      exact ⟨s.take k, s.drop k, (List.take_append_drop k s).symm,
        take_mem_takeWhile p s k hkle, ih ps (s.drop k) stk caps r hsome⟩
    | .alt a b :: ps =>
      simp only [mtch] at h
      simp only [Sem]
      rcases ha : mtch fuel (a ++ ps) s stk caps with _ | ra
      · rw [ha] at h
        exact Or.inr (ih (b ++ ps) s stk caps r h)
      · exact Or.inl (ih (a ++ ps) s stk caps ra ha)
    | .grp n a :: ps =>
      simp only [mtch] at h
      simp only [Sem]
      exact ih (a ++ .closeg n :: ps) s ((n, s) :: stk) caps r h
    | .closeg n :: ps =>
      simp only [mtch] at h
      rcases stk with _ | ⟨⟨m, sOpen⟩, stk2⟩
      · have h2 : (none : Option (List (Nat × List Char) × List Char)) = some r := h
        exact absurd h2 (by simp)
      · have h2 : mtch fuel ps s stk2 ((m, sOpen.take (sOpen.length - s.length)) :: caps)
            = some r := h
        simp only [Sem]
        exact ih ps s stk2 _ r h2

lemma findMatch_sound (ps : List Pat) (s : List Char) (r : List (Nat × List Char) × Nat)
    (h : findMatch ps s = some r) : ∃ i, Sem ps (s.drop i) := by
  obtain ⟨i, _, hsome⟩ := List.exists_of_findSome?_eq_some h
  rcases hrun : runPats ps (s.drop i) with _ | r2
  · rw [hrun] at hsome
    exact absurd hsome (by simp)
  · exact ⟨i, mtch_sound _ ps (s.drop i) [] [] r2 hrun⟩

/-! ## `replace_strings` (lib.rs): the String-Array Inliner -/

/-- `STRING_REGEX = var *(_\w+)\=\["(.*?)"\];`: literal `var`, a space run,
group 1 an identifier of an underscore followed by one or more word
characters (no space before the `=`), literal `=["`, group 2 the lazily
matched body, literal `"];`. -/
def STRING_PATS : List Pat :=
  [.lit "var".data, .star true isSpaceOnly,
   .grp 1 [.lit ['_'], .cls wordChar, .star true wordChar],
   .lit ['=', '[', dqc],
   .grp 2 [.star false notNL],
   .lit (dqc :: "];".data)]

/-- Rust `str::split` on a (nonempty) separator string, fuel-structural:
segments between non-overlapping left-to-right occurrences. -/
def splitSeqF (sep : List Char) : Nat → List Char → List Char → List (List Char)
  | 0, s, cur => [cur ++ s]
  | fuel + 1, s, cur =>
    if sep ≠ [] ∧ sep.isPrefixOf s then cur :: splitSeqF sep fuel (s.drop sep.length) []
    else match s with
      | [] => [cur]
      | c :: cs => splitSeqF sep fuel cs (cur ++ [c])

/-- `s.split(sep)`. -/
def splitSeq (sep s : List Char) : List (List Char) := splitSeqF sep (s.length + 1) s []

/-- `replace_strings(source)`: find the first `STRING_REGEX` match, split
the captured body on the three-character separator quote-comma-quote,
replace every occurrence of `name[i]` in the whole text by the quoted i-th
value (one sequential `str::replace` per index, in index order), then
return `modified_source[match_end..]` — the byte offset `match_end` is
computed on the *original* source but used to slice the *modified* text
(offsets on these ASCII texts are character offsets; where the Rust slice
would panic on a shortened text this model just drops what is there). -/
def replace_strings (source : List Char) : List Char :=
  match findMatch STRING_PATS source with
  | none => source
  | some (caps, mEnd) =>
    let varName := capStr caps 1
    let strings := capStr caps 2
    let lookup := splitSeq [dqc, ',', dqc] strings
    let modified := lookup.enum.foldl
      (fun src p =>
        strReplace src (varName ++ '[' :: (Nat.repr p.1).data ++ [']']) (dqc :: p.2 ++ [dqc]))
      source
    modified.drop mEnd

/-! ## `filter_args` (lib.rs): the Argument Extractor -/

/-- The regex `\d+`: one digit, then a greedy digit run. -/
def plusDigits : List Pat := [.cls digitCls, .star true digitCls]

/-- `JUICERS[0] = }\('(.*)', *(\d+|\[\]), *(\d+), *'(.*)'\.split\('\|'\), *(\d+), *(.*)\)\)`. -/
def JUICER_FULL : List Pat :=
  [.lit [rbrace, '(', sqc],
   .grp 1 [.star true notNL],
   .lit [sqc, ','], .star true isSpaceOnly,
   .grp 2 [.alt plusDigits [.lit ['[', ']']]],
   .lit [','], .star true isSpaceOnly,
   .grp 3 plusDigits,
   .lit [','], .star true isSpaceOnly,
   .lit [sqc],
   .grp 4 [.star true notNL],
   .lit ([sqc] ++ ".split(".data ++ [sqc, '|', sqc, ')']),
   .lit [','], .star true isSpaceOnly,
   .grp 5 plusDigits,
   .lit [','], .star true isSpaceOnly,
   .grp 6 [.star true notNL],
   .lit [')', ')']]

/-- `JUICERS[1] = }\('(.*)', *(\d+|\[\]), *(\d+), *'(.*)'\.split\('\|'\)`:
the simple pattern, a prefix of the full one (groups 1–4 only). -/
def JUICER_SIMPLE : List Pat :=
  [.lit [rbrace, '(', sqc],
   .grp 1 [.star true notNL],
   .lit [sqc, ','], .star true isSpaceOnly,
   .grp 2 [.alt plusDigits [.lit ['[', ']']]],
   .lit [','], .star true isSpaceOnly,
   .grp 3 plusDigits,
   .lit [','], .star true isSpaceOnly,
   .lit [sqc],
   .grp 4 [.star true notNL],
   .lit ([sqc] ++ ".split(".data ++ [sqc, '|', sqc, ')'])]

/-- `str::parse::<usize>`: base-10 `usize::from_str_radix`. -/
def parseUsizeDec (s : List Char) : Option Nat :=
  match from_str_radix 10 s with
  | .ok v => some v
  | .error _ => none

/-- Post-processing of a juicer's captures: `[]` as radix means 62,
otherwise the radix and the count parse as base-10 `usize` (`Invalid
radix` / `Invalid count` on failure), and the symbol string is split on
`|`. -/
def juicerExtract (caps : List (Nat × List Char)) :
    Except String (List Char × List (List Char) × Nat × Nat) :=
  let radixE : Except String Nat :=
    if capStr caps 2 = ['[', ']'] then .ok 62
    else match parseUsizeDec (capStr caps 2) with
      | some v => .ok v
      | none => .error "Invalid radix"
  match radixE with
  | .error e => .error e
  | .ok radix =>
    match parseUsizeDec (capStr caps 3) with
    | none => .error "Invalid count"
    | some count => .ok (capStr caps 1, splitSeq ['|'] (capStr caps 4), radix, count)

/-- `filter_args(source)`: try the full juicer, then the simple one; the
first pattern that matches wins (its parse errors are returned, not
retried). -/
def filter_args (source : List Char) :
    Except String (List Char × List (List Char) × Nat × Nat) :=
  match findMatch JUICER_FULL source with
  | some (caps, _) => juicerExtract caps
  | none =>
    match findMatch JUICER_SIMPLE source with
    | some (caps, _) => juicerExtract caps
    | none => .error "Could not make sense of p.a.c.k.e.r data (unexpected code structure)"

/-! ## `unpack` / `unpack_unchecked` (lib.rs): the orchestrator -/

/-- First index at which `sep` occurs in `s` (for `str::split_once`). -/
def findSeqIdx (sep s : List Char) : Option Nat :=
  (List.range (s.length + 1)).find? (fun i => sep.isPrefixOf (s.drop i))

/-- `["')))", "}))"] .iter().find_map(|d| source.split_once(d).map(|(_, end)| end))
.unwrap_or("")`. -/
def endString (s : List Char) : List Char :=
  (List.findSome? (fun d => (findSeqIdx d s).map (fun i => s.drop (i + d.length)))
    [[sqc, ')', ')', ')'], [rbrace, ')', ')']]).getD []

/-- The cardinality-mismatch message
`format!("Malformed p.a.c.k.e.r. symtab. ({} != {})", count, symtab.len())`. -/
def mismatchMsg (declared actual : Nat) : String :=
  "Malformed p.a.c.k.e.r. symtab. (" ++ Nat.repr declared ++ " != " ++ Nat.repr actual ++ ")"

/-- `unpack_unchecked(source)`: `none` models the panic of
`PACKED_REGEX.find(source).unwrap()` on input without the preamble;
otherwise prefix before the match start, suffix after the first end
delimiter, argument extraction, the cardinality check, `Unbaser`
construction, word decoding, string-array inlining, reassembly. -/
def unpack_unchecked (source : List Char) : Option (Except String (List Char)) :=
  match findPacked source with
  | none => none
  | some beginOffset =>
    let beginString := source.take beginOffset
    let endStr := endString source
    match filter_args source with
    | .error e => some (.error e)
    | .ok (payload, symtab, radix, count) =>
      if count ≠ symtab.length then
        some (.error (mismatchMsg count symtab.length))
      else
        match Unbaser.new radix with
        | .error e => some (.error e)
        | .ok unbaser =>
          some (.ok (beginString ++ replace_strings (decode_words payload symtab unbaser)
            ++ endStr))

/-- `unpack(source)`: reject undetected input, then `unpack_unchecked`. -/
def unpack (source : List Char) : Option (Except String (List Char)) :=
  if detect source then unpack_unchecked source
  else some (.error "Invalid p.a.c.k.e.r data.")

/-! ## Claims C7, C8, C10: the String-Array Inliner -/

/-- A run of word characters. -/
def WordRun (l : List Char) : Prop := ∀ c ∈ l, wordChar c = true

/-- A run of non-newline characters. -/
def NoNL (l : List Char) : Prop := ∀ c ∈ l, notNL c = true

/-- The text contains, anywhere, a declaration of the exact shape
`STRING_REGEX` recognizes: `var`, a run of spaces, an identifier that is an
underscore followed by at least one word character, then immediately
`=["`, a newline-free body, and `"];`. -/
def HasUDecl (s : List Char) : Prop :=
  ∃ pre sp w mid post, SpacesOf isSpaceOnly sp ∧ w ≠ [] ∧ WordRun w ∧ NoNL mid ∧
    s = pre ++ "var".data ++ sp ++ ['_'] ++ w ++ ['=', '[', dqc] ++ mid
      ++ [dqc] ++ "];".data ++ post

lemma stringPats_sem_hasUDecl (s : List Char) (i : Nat) (h : Sem STRING_PATS (s.drop i)) :
    HasUDecl s := by
  simp only [STRING_PATS, Sem, List.cons_append, List.nil_append] at h
  obtain ⟨r1, h1, sp, r2, h2, hsp, r3, h3, c, r4, h4, hcw, wrun, r5, h5, hwrun,
    r6, h6, mid, r7, h7, hmid, r8, h8, -⟩ := h
  refine ⟨s.take i, sp, c :: wrun, mid, r8, hsp, List.cons_ne_nil _ _, ?_, hmid, ?_⟩
  · intro x hx
    rcases List.mem_cons.mp hx with hx | hx
    · subst hx; exact hcw
    · exact hwrun x hx
  · conv_lhs => rw [← List.take_append_drop i s, h1, h2, h3, h4, h5, h6, h7, h8]
    simp [List.append_assoc]

/-- Scan forward for the closing `"];` with no intervening newline. -/
def findCloseQuote : Nat → List Char → Bool
  | 0, _ => false
  | fuel + 1, s =>
    if (dqc :: "];".data).isPrefixOf s then true
    else match s with
      | [] => false
      | c :: cs => if c = nlChar then false else findCloseQuote fuel cs

/-- The scanner's check after `var` and the space run: an underscore, a
non-empty word run, then immediately `=["` and a closing `"];` with no
newline before it. -/
def uDeclAfterVar : List Char → Bool
  | [] => false
  | c :: r2 =>
    if c = '_' then
      if (r2.takeWhile wordChar).isEmpty then false
      else
        if (['=', '[', dqc]).isPrefixOf (r2.dropWhile wordChar) then
          findCloseQuote ((r2.dropWhile wordChar).length + 1) ((r2.dropWhile wordChar).drop 3)
        else false
    else false

/-- Does a declaration of the `STRING_REGEX` shape start exactly here? -/
def uDeclAt (t : List Char) : Bool :=
  if "var".data.isPrefixOf t then uDeclAfterVar ((t.drop 3).dropWhile isSpaceOnly)
  else false

/-- Executable containment check for the declaration shape. -/
def hasUDeclScan (s : List Char) : Bool :=
  (List.range (s.length + 1)).any (fun i => uDeclAt (s.drop i))

lemma takeWhile_append_run (p : Char → Bool) :
    ∀ (w rest : List Char), (∀ c ∈ w, p c = true) →
      (rest = [] ∨ ∃ h t, rest = h :: t ∧ p h = false) →
      (w ++ rest).takeWhile p = w := by
  intro w
  induction w with
  | nil =>
    intro rest _ hr
    simp only [List.nil_append]
    rcases hr with h | ⟨h, t, hrt, hh⟩
    · subst h; rfl
    · subst hrt
      rw [List.takeWhile_cons, if_neg (by simp [hh])]
  | cons a w ih =>
    intro rest hall hr
    rw [List.cons_append, List.takeWhile_cons, if_pos (hall a (List.mem_cons_self _ _))]
    rw [ih rest (fun c hc => hall c (List.mem_cons_of_mem a hc)) hr]

lemma findCloseQuote_complete :
    ∀ (mid : List Char) (fuel : Nat) (rest : List Char), NoNL mid → mid.length < fuel →
      findCloseQuote fuel (mid ++ ((dqc :: "];".data) ++ rest)) = true := by
  intro mid
  induction mid with
  | nil =>
    intro fuel rest _ hf
    match fuel, hf with
    | f + 1, _ =>
      unfold findCloseQuote
      rw [if_pos]
      rw [List.nil_append, List.isPrefixOf_iff_prefix]
      exact List.prefix_append _ _
  | cons c mid ih =>
    intro fuel rest hnl hf
    match fuel, hf with
    | f + 1, hf =>
      unfold findCloseQuote
      by_cases hp : (dqc :: "];".data).isPrefixOf (c :: mid ++ ((dqc :: "];".data) ++ rest))
      · rw [if_pos hp]
      · rw [if_neg hp]
        have hc : ¬ c = nlChar := by
          have := hnl c (List.mem_cons_self _ _)
          simp only [notNL] at this
          intro he
          rw [he] at this
          simp at this
        simp only [List.cons_append]
        rw [if_neg hc]
        exact ih f rest (fun x hx => hnl x (List.mem_cons_of_mem c hx))
          (by simp only [List.length_cons] at hf; omega)

lemma hasUDeclScan_complete (s : List Char) (h : HasUDecl s) : hasUDeclScan s = true := by
  obtain ⟨pre, sp, w, mid, post, hsp, hw, hword, hmid, hs⟩ := h
  unfold hasUDeclScan
  rw [List.any_eq_true]
  have hs2 : s = pre ++ ("var".data ++ (sp ++ ('_' :: (w ++ (['=', '[', dqc]
      ++ (mid ++ (dqc :: ("];".data ++ post)))))))) := by
    rw [hs]
    simp [List.append_assoc]
  refine ⟨pre.length, ?_, ?_⟩
  · rw [List.mem_range]
    have : pre.length ≤ s.length := by
      rw [hs2, List.length_append]
      omega
    omega
  · have hdrop : s.drop pre.length
        = "var".data ++ (sp ++ ('_' :: (w ++ (['=', '[', dqc]
          ++ (mid ++ (dqc :: ("];".data ++ post))))))) := by
      rw [hs2, List.drop_left]
    rw [hdrop]
    unfold uDeclAt
    rw [if_pos (by rw [List.isPrefixOf_iff_prefix]; exact List.prefix_append _ _)]
    have hd3 : ("var".data ++ (sp ++ ('_' :: (w ++ (['=', '[', dqc]
        ++ (mid ++ (dqc :: ("];".data ++ post)))))))).drop 3
        = sp ++ ('_' :: (w ++ (['=', '[', dqc] ++ (mid ++ (dqc :: ("];".data ++ post)))))) := by
      rw [show (3 : Nat) = "var".data.length from rfl, List.drop_left]
    rw [hd3]
    rw [dropWhile_append_run isSpaceOnly sp _ hsp (Or.inr ⟨'_', _, rfl, by decide⟩)]
    simp only [uDeclAfterVar, if_true]
    have heq : ∃ hh tt, (['=', '[', dqc] ++ (mid ++ (dqc :: ([']', ';'] ++ post))))
        = hh :: tt ∧ wordChar hh = false := ⟨'=', _, rfl, by decide⟩
    rw [takeWhile_append_run wordChar w _ hword (Or.inr heq)]
    rw [dropWhile_append_run wordChar w
      (['=', '[', dqc] ++ (mid ++ (dqc :: ([']', ';'] ++ post)))) hword
      (Or.inr ⟨'=', _, rfl, by decide⟩)]
    have hwE : w.isEmpty = false := by
      rcases w with _ | ⟨a, t⟩
      · exact absurd rfl hw
      · rfl
    rw [hwE]
    simp only [Bool.false_eq_true, if_false]
    rw [if_pos (by rw [List.isPrefixOf_iff_prefix]; exact List.prefix_append _ _)]
    have hd3b : ((['=', '[', dqc] ++ (mid ++ (dqc :: ([']', ';'] ++ post)))) : List Char).drop 3
        = mid ++ (dqc :: ([']', ';'] ++ post)) := by
      rw [show (3 : Nat) = (['=', '[', dqc] : List Char).length from rfl, List.drop_left]
    rw [hd3b]
    have hmerge : mid ++ (dqc :: ([']', ';'] ++ post))
        = mid ++ ((dqc :: "];".data) ++ post) := by
      simp
    rw [hmerge]
    apply findCloseQuote_complete mid _ post hmid
    simp only [List.length_append, List.length_cons]
    omega

lemma replace_strings_no_match (s : List Char) (h : findMatch STRING_PATS s = none) :
    replace_strings s = s := by
  unfold replace_strings
  rw [h]

lemma not_hasUDecl_no_match (s : List Char) (h : ¬ HasUDecl s) :
    findMatch STRING_PATS s = none := by
  rcases hm : findMatch STRING_PATS s with _ | r
  · rfl
  · obtain ⟨i, hsem⟩ := findMatch_sound _ _ _ hm
    exact absurd (stringPats_sem_hasUDecl s i hsem) h

/-- C8, amended: the String-Array Inliner leaves an input with no matching
declaration unchanged, and is therefore idempotent on such (already
inlined) text.  (The unrestricted claim fails: see the counterexample,
where the first run uncovers a second declaration.) -/
theorem C8_inliner_identity_without_declaration (s : List Char) (h : ¬ HasUDecl s) :
    replace_strings s = s ∧ replace_strings (replace_strings s) = replace_strings s := by
  have hid : replace_strings s = s := replace_strings_no_match s (not_hasUDecl_no_match s h)
  exact ⟨hid, by rw [hid, hid]⟩

/-- A plain text with no string-array declaration, for the C8 witness. -/
def exC8plain : List Char := "var x = 1; f(2);".data

/-- Witness for the amended C8 at a concrete declaration-free input. -/
theorem C8_inliner_identity_example :
    replace_strings exC8plain = exC8plain ∧
    replace_strings (replace_strings exC8plain) = replace_strings exC8plain :=
  C8_inliner_identity_without_declaration exC8plain
    (fun h => absurd (hasUDeclScan_complete exC8plain h) (by decide))

/-- Two declarations: the first run inlines (only) the first and returns
the text after it — including the second declaration, which a second run
then processes. -/
def exC8twice : List Char := "var _a=[\"x\"];var _b=[\"y\"];f(_b[0]);".data

/-- C8 counterexample: `replace_strings` is not idempotent on this input —
the first run returns `var _b=[\"y\"];f(_b[0]);` and the second run inlines
the surviving declaration, yielding `f(\"y\");`. -/
theorem C8_two_declarations_not_idempotent :
    replace_strings (replace_strings exC8twice) ≠ replace_strings exC8twice := by
  decide

/-- C10: the Inliner recognizes a declaration only when the identifier
starts with an underscore followed by word characters and the `=` follows
immediately: any input it does not return unchanged contains a declaration
of that exact shape, and the claim's example with identifier `abc` passes
through unchanged. -/
theorem C10_underscore_identifier_required :
    (∀ s : List Char, replace_strings s ≠ s → HasUDecl s) ∧
    replace_strings "var abc=[\"x\",\"y\"]; f(abc[0]);".data
      = "var abc=[\"x\",\"y\"]; f(abc[0]);".data := by
  constructor
  · intro s hne
    by_contra h
    exact hne (replace_strings_no_match s (not_hasUDecl_no_match s h))
  · decide

/-- The C7 failing input `f(_x[0]);var _x=["hello"];g(_x[0]);`: a reference
to the array occurs before the declaration. -/
def exC7 : List Char := "f(_x[0]);var _x=[\"hello\"];g(_x[0]);".data

/-- C7 (code bug): replacing the pre-declaration occurrence of `_x[0]`
lengthens the text before the declaration's end, but
`modified_source[match_end..]` slices the modified text at the offset
computed on the original, so the output keeps the declaration's trailing
`];` — it is not the text after the matched declaration (which would be
`g("hello");`). -/
theorem C7_stale_offset_mangles_output :
    replace_strings exC7 = "];g(\"hello\");".data ∧
    replace_strings exC7 ≠ "g(\"hello\");".data := by
  constructor
  · decide
  · decide

/-! ## Claim C6: the cardinality check -/

/-- C6, amended: for every input that contains the packer preamble (so
detection succeeds) and on which argument extraction succeeds, a declared
count that differs from the actual number of pipe-separated symbols makes
both `unpack` and `unpack_unchecked` fail with the cardinality-mismatch
error naming both numbers; the symbol table is never truncated or padded. -/
theorem C6_count_mismatch_error (source payload : List Char) (symtab : List (List Char))
    (radix count : Nat) (hdet : detect source = true)
    (hargs : filter_args source = .ok (payload, symtab, radix, count))
    (hne : count ≠ symtab.length) :
    unpack source = some (.error (mismatchMsg count symtab.length)) ∧
    unpack_unchecked source = some (.error (mismatchMsg count symtab.length)) := by
  obtain ⟨off, hoff⟩ : ∃ off, findPacked source = some off := by
    unfold detect at hdet
    exact Option.isSome_iff_exists.mp hdet
  have hun : unpack_unchecked source = some (.error (mismatchMsg count symtab.length)) := by
    unfold unpack_unchecked
    simp only [hoff, hargs]
    rw [if_pos hne]
  refine ⟨?_, hun⟩
  unfold unpack
  rw [if_pos hdet]
  exact hun

/-- The call tail `}('x',10,3,'a|b'.split('|'),0,0))`: argument extraction
succeeds with declared count 3 but two symbols. -/
def exC6tail : List Char :=
  [rbrace, '(', sqc, 'x', sqc] ++ ",10,3,".data ++ [sqc] ++ "a|b".data ++ [sqc]
    ++ ".split(".data ++ [sqc, '|', sqc] ++ "),0,0))".data

/-- The same call tail preceded by the detection preamble. -/
def exC6full : List Char := "eval(function(p,a,c,k,e,r)".data ++ exC6tail

/-- Witness for the amended C6 at a concrete mismatching input. -/
theorem C6_count_mismatch_error_example :
    unpack exC6full = some (.error (mismatchMsg 3 2)) ∧
    unpack_unchecked exC6full = some (.error (mismatchMsg 3 2)) :=
  C6_count_mismatch_error exC6full ['x'] ["a".data, "b".data] 10 3
    (by decide) (by rfl) (by decide)

/-- C6 counterexample: on this input argument extraction succeeds with a
mismatching count (3 declared, 2 actual), but the preamble is absent, so
`unpack_unchecked` panics at `PACKED_REGEX.find(source).unwrap()` (`none`
in the model) and `unpack` fails with the detection error — neither fails
with the cardinality-mismatch error the claim requires for every input on
which extraction succeeds. -/
theorem C6_mismatch_without_preamble :
    filter_args exC6tail = .ok (['x'], ["a".data, "b".data], 10, 3) ∧
    ((3 : Nat) = 2) = False ∧
    unpack_unchecked exC6tail = none ∧
    unpack exC6tail = some (.error "Invalid p.a.c.k.e.r data.") ∧
    "Invalid p.a.c.k.e.r data." ≠ mismatchMsg 3 2 := by
  refine ⟨by rfl, by decide, by rfl, by rfl, by decide⟩
